/-
Verification of the SEGYrecover digitization workflow against its
natural-language specification.  The definitions below are shallow
embeddings of the Python source under src/segyrecover; machine integers
are modelled by Int/Nat, images by functions or lists, fallible calls by
Option/Except.  Core pipeline modules that are absent from the source
tree are modelled from the specification and marked as such in their
doc comments.
-/
import Mathlib

set_option maxHeartbeats 1000000

namespace SegyRecover

/-! ## Parameter records and validation

Embeds the parameter record assembled in
`ui/workflow.py:input_parameters` and `ui/_2_parameters_tab.py:save_parameters`
(both build the same dict of 17 integer fields, run the same ordered
validation list, and only then write the `.par` file). -/

structure ParamRecord where
  Trace_P1 : Int
  TWT_P1 : Int
  Trace_P2 : Int
  TWT_P2 : Int
  Trace_P3 : Int
  TWT_P3 : Int
  DT : Int
  F1 : Int
  F2 : Int
  F3 : Int
  F4 : Int
  TLT : Int
  HLT : Int
  HE : Int
  BDB : Int
  BDE : Int
  BFT : Int
deriving Repr, DecidableEq

/-- The `validations` list of `(condition, message)` pairs, in the exact
source order of `workflow.py` lines 137-153 (identical in
`_2_parameters_tab.py` lines 501-517). -/
def validations (p : ParamRecord) : List (Bool × String) :=
  [ (decide (p.DT > 0), "Sample rate must be > 0"),
    (decide (p.F4 > p.F3), "F4 must be > F3"),
    (decide (p.F3 > p.F2), "F3 must be > F2"),
    (decide (p.F2 > p.F1), "F2 must be > F1"),
    (decide (p.F1 > 0), "F1 must be > 0"),
    (decide (p.TWT_P3 > p.TWT_P1), "TWT_P3 must be > TWT_P1"),
    (decide (p.BDB < p.BDE), "BDB must be < BDE"),
    (decide (p.BDB >= 0), "BDB must be >= 0"),
    (decide (p.BFT >= 0 ∧ p.BFT <= 100), "BFT must be between 0 and 100"),
    (decide (p.TLT > 0), "Timeline thickness must be > 0"),
    (decide (p.HLT > 0), "Horizontal line thickness must be > 0"),
    (decide (p.HE > 0), "Horizontal erosion must be > 0"),
    (decide (p.Trace_P1 >= 0), "Trace_P1 must be >= 0"),
    (decide (p.Trace_P2 >= 0), "Trace_P2 must be >= 0"),
    (decide (p.Trace_P3 >= 0), "Trace_P3 must be >= 0") ]

/-- `for condition, message in validations: if not condition: raise ValueError(message)` —
returns the message of the first violated constraint, if any. -/
def firstViolation : List (Bool × String) → Option String
  | [] => none
  | (c, m) :: rest => if c then firstViolation rest else some m

/-- The key/value lines written to the `.par` file, in the dict insertion
order of the source (`param_values`). -/
def paramLines (p : ParamRecord) : List (String × Int) :=
  [ ("Trace_P1", p.Trace_P1), ("TWT_P1", p.TWT_P1),
    ("Trace_P2", p.Trace_P2), ("TWT_P2", p.TWT_P2),
    ("Trace_P3", p.Trace_P3), ("TWT_P3", p.TWT_P3),
    ("DT", p.DT),
    ("F1", p.F1), ("F2", p.F2), ("F3", p.F3), ("F4", p.F4),
    ("TLT", p.TLT), ("HLT", p.HLT), ("HE", p.HE),
    ("BDB", p.BDB), ("BDE", p.BDE), ("BFT", p.BFT) ]

/-- `save_parameters`: validate the record; on the first violated
constraint raise `ValueError(message)` (nothing is written), otherwise
write the parameter file and return its lines unchanged. -/
def save_parameters (p : ParamRecord) : Except String (List (String × Int)) :=
  match firstViolation (validations p) with
  | some m => .error m
  | none => .ok (paramLines p)

/-- The conjunction of all spec inequalities for a parameter record. -/
def validSpec (p : ParamRecord) : Prop :=
  p.DT > 0 ∧ p.F1 > 0 ∧ p.F2 > p.F1 ∧ p.F3 > p.F2 ∧ p.F4 > p.F3 ∧
  p.TWT_P3 > p.TWT_P1 ∧ 0 ≤ p.BDB ∧ p.BDB < p.BDE ∧
  0 ≤ p.BFT ∧ p.BFT ≤ 100 ∧ p.TLT > 0 ∧ p.HLT > 0 ∧ p.HE > 0 ∧
  p.Trace_P1 ≥ 0 ∧ p.Trace_P2 ≥ 0 ∧ p.Trace_P3 ≥ 0

instance (p : ParamRecord) : Decidable (validSpec p) := by
  unfold validSpec; infer_instance

theorem firstViolation_eq_none_iff (l : List (Bool × String)) :
    firstViolation l = none ↔ ∀ x ∈ l, x.1 = true := by
  induction l with
  | nil => simp [firstViolation]
  | cons a rest ih => obtain ⟨c, m⟩ := a; cases c <;> simp [firstViolation, ih]

theorem firstViolation_validations_eq_none_iff (p : ParamRecord) :
    firstViolation (validations p) = none ↔ validSpec p := by
  rw [firstViolation_eq_none_iff]
  simp only [validations, validSpec, List.mem_cons, List.not_mem_nil, or_false,
    forall_eq_or_imp, forall_eq, decide_eq_true_eq]
  constructor
  · intro h; obtain ⟨h1, h2, h3, h4, h5, h6, h7, h8, h9, h10, h11, h12, h13, h14, h15⟩ := h
    omega
  · intro h; obtain ⟨h1, h2, h3, h4, h5, h6, h7, h8, h9, h10, h11, h12, h13, h14, h15, h16⟩ := h
    omega

/-! ## The resampling time grids (digitize_segy step 4)

`old_times = np.linspace(TWT_P1, TWT_P3, H)` and
`new_times = np.arange(TWT_P1, TWT_P3 + DT, DT)` from
`ui/workflow.py` lines 352-353.  Integer `np.arange(start, stop, step)`
with `0 < step` yields `max 0 ⌈(stop-start)/step⌉` elements
`start + k*step`. -/

def arange (start stop step : Int) : List Int :=
  (List.range (if 0 < step then ((stop - start + step - 1) / step).toNat else 0)).map
    (fun (k : ℕ) => start + (k : Int) * step)

def new_times (t1 t3 dt : Int) : List Int :=
  arange t1 (t3 + dt) dt

/-- The r-th entry of `np.linspace(t1, t3, H)`: the affine row-to-time map. -/
def rowTime (t1 t3 : Int) (H : ℕ) (r : ℕ) : ℚ :=
  (t1 : ℚ) + r * ((t3 : ℚ) - (t1 : ℚ)) / ((H : ℚ) - 1)

/-- `np.linspace(t1, t3, H)` (for `H = 1` numpy returns `[t1]`, which the
formula also yields since the `r = 0` term vanishes). -/
def old_times (t1 t3 : Int) (H : ℕ) : List ℚ :=
  (List.range H).map (rowTime t1 t3 H)

/-- Modelled from the spec (§4.4): `core/data_processor.py` is absent from
the source tree; `np.interp`-style piecewise-linear interpolation of the
sample points `pts` (sorted by abscissa) at `x`, clamped to the end
values outside the sampled range. -/
def npInterp : List (ℚ × ℚ) → ℚ → ℚ
  | [], _ => 0
  | (x0, y0) :: rest, x => if x ≤ x0 then y0 else npInterpGo x0 y0 rest x
where npInterpGo (xl yl : ℚ) : List (ℚ × ℚ) → ℚ → ℚ
  | [], _ => yl
  | (xr, yr) :: rest, x =>
    if x ≤ xr then yl + (x - xl) * (yr - yl) / (xr - xl) else npInterpGo xr yr rest x

/-- Modelled from the spec (§4.4): `core/data_processor.py` is absent from
the source tree; `resample_data` interpolates every trace column of the
matrix onto the shared target grid `newT`. -/
def resample_data (m : List (List ℚ)) (oldT newT : List ℚ) : List (List ℚ) :=
  m.map (fun col => newT.map (npInterp (oldT.zip col)))

theorem arange_length_of_pos {a b : Int} (hb : 0 < b) (ha : 0 < a) :
    ((a + 2 * b - 1) / b).toNat = (a / b).toNat + (if b ∣ a then 1 else 2) := by
  by_cases hdvd : b ∣ a
  · obtain ⟨q, rfl⟩ := hdvd
    have hq : 0 < q := by
      by_contra h
      push_neg at h
      nlinarith
    have hqd : b * q / b = q := Int.mul_ediv_cancel_left q hb.ne'
    have key : b * q + 2 * b - 1 = (b - 1) + b * (q + 1) := by ring
    rw [key, Int.add_mul_ediv_left _ _ hb.ne',
      Int.ediv_eq_zero_of_lt (by omega) (by omega), hqd, if_pos (dvd_mul_right b q)]
    omega
  · have hmod := Int.emod_nonneg a hb.ne'
    have hmodlt := Int.emod_lt_of_pos a hb
    have hdm := Int.ediv_add_emod a b
    have hq : 0 ≤ a / b := Int.ediv_nonneg ha.le hb.le
    have hr : a % b ≠ 0 := fun h => hdvd (Int.dvd_of_emod_eq_zero h)
    have key : a + 2 * b - 1 = (a % b - 1) + b * (a / b + 2) := by linear_combination -hdm
    rw [key, Int.add_mul_ediv_left _ _ hb.ne',
      Int.ediv_eq_zero_of_lt (by omega) (by omega), if_neg hdvd]
    omega

/-! ## Fourth ROI corner (`ui/app_dialogs.py:calculate_and_draw_fourth_point`) -/

/-- `p4 = (p2[0] + (p3[0] - p1[0]), p3[1] + (p2[1] - p1[1]))`, appended when
exactly three points have been selected; any other point count leaves the
list unchanged. -/
def calculate_and_draw_fourth_point : List (Int × Int) → List (Int × Int)
  | [p1, p2, p3] => [p1, p2, p3, (p2.1 + (p3.1 - p1.1), p3.2 + (p2.2 - p1.2))]
  | pts => pts

/-! ## The digitization pipeline driver (`ui/workflow.py:digitize_segy`)

The five core processor classes live in `core/` modules absent from the
source tree, so the driver is embedded over an abstract record of their
entry points; the control flow below mirrors `digitize_segy` lines
280-396 exactly: each stage that reports failure (`None` result, or
`False` from `write_segy`) ends the run at once, and the baseline
confirmation dialog between detection and extraction restarts the run
when rejected. -/

inductive Stage where
  | removeTimelines
  | detectBaselines
  | extractAmplitude
  | processAmplitudes
  | resampleData
  | filterData
  | writeSegy
deriving DecidableEq, Repr

/-- The fixed invocation order of the pipeline stages. -/
def stageOrder : List Stage :=
  [.removeTimelines, .detectBaselines, .extractAmplitude, .processAmplitudes,
   .resampleData, .filterData, .writeSegy]

/-- The core processors' entry points, as called by `digitize_segy`. -/
structure Core (Img Amp : Type) where
  remove_timelines : Img → Int → Int → Option (Img × Img)
  detect_baselines : Img → Int → Int → Int → Int → Option (Img × List Int × List Int × List Int)
  confirmBaselines : Img → Img → Img → Img → List Int → List Int → List Int → Int → Int → Bool
  extract_amplitude : Img → List Int → Option Amp
  process_amplitudes : Amp → Option Amp
  rows : Amp → ℕ
  resampleCall : Amp → List ℚ → List Int → Option Amp
  filter_data : Amp → Int → Int → Int → Int → Int → Option Amp
  write_segy : Amp → List Int → String → Int → Int → Int → Int → Int → Bool

/-- Outcome of one `digitize_segy` run: the stages invoked in order, the
stage whose failure ended the run (if any), whether `restart_process` was
called, and whether the SEGY file was written. -/
structure RunResult where
  invoked : List Stage
  failedAt : Option Stage
  restarted : Bool
  segyWritten : Bool
deriving DecidableEq, Repr

def digitize_segy {Img Amp : Type} (c : Core Img Amp) (img : Img) (p : ParamRecord)
    (imagePath : String) : RunResult :=
  match c.remove_timelines img p.HE p.HLT with
  | none => ⟨[.removeTimelines], some .removeTimelines, false, false⟩
  | some (image_g, image_f) =>
    match c.detect_baselines image_g p.TLT p.BDB p.BDE p.BFT with
    | none => ⟨[.removeTimelines, .detectBaselines], some .detectBaselines, false, false⟩
    | some (image_m, raw, clean, final) =>
      if c.confirmBaselines img image_f image_g image_m raw clean final p.BDB p.BDE then
        match c.extract_amplitude image_g final with
        | none => ⟨stageOrder.take 3, some .extractAmplitude, false, false⟩
        | some rawAmp =>
          match c.process_amplitudes rawAmp with
          | none => ⟨stageOrder.take 4, some .processAmplitudes, false, false⟩
          | some procAmp =>
            match c.resampleCall procAmp
                (old_times p.TWT_P1 p.TWT_P3 (c.rows procAmp))
                (new_times p.TWT_P1 p.TWT_P3 p.DT) with
            | none => ⟨stageOrder.take 5, some .resampleData, false, false⟩
            | some res =>
              match c.filter_data res p.DT p.F1 p.F2 p.F3 p.F4 with
              | none => ⟨stageOrder.take 6, some .filterData, false, false⟩
              | some filt =>
                if c.write_segy filt final imagePath p.DT p.F1 p.F2 p.F3 p.F4 then
                  ⟨stageOrder, none, false, true⟩
                else
                  ⟨stageOrder, some .writeSegy, false, false⟩
      else
        ⟨[.removeTimelines, .detectBaselines], none, true, false⟩

/-! ## Image rectification (`ui/workflow.py:crop_seismic_section`)

`width = int(np.linalg.norm(points[0] - points[1]))`,
`height = int(np.linalg.norm(points[0] - points[2]))` — for integer pixel
coordinates `int(...)` truncates the Euclidean distance, i.e. takes
`Nat.sqrt` of the squared distance — then
`cv2.threshold(rectified, 128, 255, THRESH_BINARY)` maps every pixel to
255 when its value exceeds 128 and to 0 otherwise.  The perspective warp
itself (`cv2.warpPerspective`) is an external library call, embedded as
an abstract grayscale image of the computed dimensions. -/

/-- Squared Euclidean distance between two integer pixel points. -/
def normSq (p q : Int × Int) : ℕ :=
  ((p.1 - q.1) ^ 2 + (p.2 - q.2) ^ 2).toNat

/-- `cv2.threshold(v, 128, 255, cv2.THRESH_BINARY)` per pixel. -/
def threshold128 (v : ℕ) : ℕ :=
  if 128 < v then 255 else 0

structure CropResult where
  width : ℕ
  height : ℕ
  binary : ℕ → ℕ → ℕ

def crop_seismic_section (p1 p2 p3 : Int × Int)
    (warp : ℕ → ℕ → (ℕ → ℕ → ℕ)) : CropResult :=
  let width := Nat.sqrt (normSq p1 p2)
  let height := Nat.sqrt (normSq p1 p3)
  let rectified := warp width height
  { width := width, height := height,
    binary := fun r c => threshold128 (rectified r c) }

theorem natCast_normSq_real (p q : Int × Int) :
    ((normSq p q : ℕ) : ℝ)
      = ((p.1 : ℝ) - (q.1 : ℝ)) ^ 2 + ((p.2 : ℝ) - (q.2 : ℝ)) ^ 2 := by
  have h : (0 : Int) ≤ (p.1 - q.1) ^ 2 + (p.2 - q.2) ^ 2 := by positivity
  have h2 : ((((p.1 - q.1) ^ 2 + (p.2 - q.2) ^ 2).toNat : ℕ) : ℝ)
      = (((p.1 - q.1) ^ 2 + (p.2 - q.2) ^ 2 : ℤ) : ℝ) := by
    exact_mod_cast congrArg (fun z : ℤ => (z : ℝ)) (Int.toNat_of_nonneg h)
  rw [normSq, h2]
  push_cast
  ring

/-! ## Baseline detection (`core/image_processor.py`, absent from the source tree)

All definitions in this section are modelled from the spec (§4.2 and §3):
restrict the cleaned binary image to the detection band, keep the columns
whose ink density exceeds BFT percent of the band height (*raw*),
collapse runs of adjacent candidates wider than TLT to their centroid
(rounding toward the lower column index) (*clean*), and build *final* by
inserting synthesized baselines at unmatched pitch positions in gaps
between clean baselines, the pitch being the median clean spacing;
fewer than 2 clean baselines is a fatal InsufficientBaselines failure. -/

/-- Modelled from the spec: raw candidate columns — the columns of the
detection band `[BDB, BDE)` whose ink density exceeds BFT percent of the
band height. -/
def rawBaselines (img : List (List Bool)) (bdb bde bft : ℕ) : List ℕ :=
  let band := (img.drop bdb).take (bde - bdb)
  (List.range (img.headD []).length).filter
    (fun c => bft * (bde - bdb) < 100 * (band.filter (fun row => row.getD c false)).length)

/-- Maximal runs of consecutive column indices, as (start, length) pairs. -/
def groupRuns : List ℕ → List (ℕ × ℕ)
  | [] => []
  | c :: cs =>
    match groupRuns cs with
    | [] => [(c, 1)]
    | (s, l) :: rest => if c + 1 = s then (c, l + 1) :: rest else (c, 1) :: (s, l) :: rest

/-- Modelled from the spec: a run wider than TLT collapses to its centroid
column (an even-width run rounds toward the lower index); a narrower run
keeps its columns. -/
def runElems (tlt : ℕ) (g : ℕ × ℕ) : List ℕ :=
  if tlt < g.2 then [g.1 + (g.2 - 1) / 2]
  else (List.range g.2).map (fun i => g.1 + i)

/-- Modelled from the spec: clean baselines — thickness collapse of the
raw candidate runs. -/
def cleanBaselines (tlt : ℕ) (raw : List ℕ) : List ℕ :=
  (groupRuns raw).flatMap (runElems tlt)

def insertSorted (x : ℕ) : List ℕ → List ℕ
  | [] => [x]
  | y :: ys => if x ≤ y then x :: y :: ys else y :: insertSorted x ys

def sortNat (l : List ℕ) : List ℕ :=
  l.foldr insertSorted []

/-- Lower median of a list of naturals. -/
def median (l : List ℕ) : ℕ :=
  (sortNat l).getD ((l.length - 1) / 2) 0

/-- Spacings between consecutive baselines. -/
def diffs : List ℕ → List ℕ
  | a :: b :: rest => (b - a) :: diffs (b :: rest)
  | _ => []

/-- Recursion worker for `fillGap`; the fuel `b - a` strictly bounds the
number of insertions since each one advances `a` by the positive pitch. -/
def fillGapAux : ℕ → ℕ → ℕ → ℕ → List ℕ
  | 0, _, _, _ => []
  | fuel + 1, a, b, p =>
    if 0 < p ∧ a + 2 * p ≤ b then (a + p) :: fillGapAux fuel (a + p) b p else []

/-- Modelled from the spec: synthesized baselines at pitch steps strictly
inside a gap `(a, b)` too wide for a single trace pitch. -/
def fillGap (a b p : ℕ) : List ℕ :=
  fillGapAux (b - a) a b p

/-- Modelled from the spec: final baselines — the clean baselines with
synthesized baselines inserted at unmatched pitch positions inside each
gap. -/
def fillGaps (p : ℕ) : List ℕ → List ℕ
  | [] => []
  | [a] => [a]
  | a :: b :: rest => a :: (fillGap a b p ++ fillGaps p (b :: rest))

/-- Modelled from the spec: `detect_baselines` of `core/image_processor.py`
(absent from the source tree); re-validates the band, computes the
raw/clean/final baseline lists, and fails with InsufficientBaselines when
fewer than 2 clean baselines exist. -/
def detect_baselines (img : List (List Bool)) (tlt bdb bde bft : ℕ) :
    Option (List ℕ × List ℕ × List ℕ) :=
  if bdb < bde then
    let raw := rawBaselines img bdb bde bft
    let clean := cleanBaselines tlt raw
    if clean.length < 2 then none
    else some (raw, clean, fillGaps (median (diffs clean)) clean)
  else none

theorem fillGapAux_bounds :
    ∀ (fuel a b p : ℕ), ∀ x ∈ fillGapAux fuel a b p, a < x ∧ x < b := by
  intro fuel
  induction fuel with
  | zero => intro a b p x hx; simp [fillGapAux] at hx
  | succ n ih =>
    intro a b p x hx
    simp only [fillGapAux] at hx
    split_ifs at hx with h
    · obtain ⟨hp, hab⟩ := h
      rcases List.mem_cons.mp hx with rfl | hx'
      · omega
      · have := ih (a + p) b p x hx'
        omega
    · simp at hx

theorem fillGap_bounds (a b p : ℕ) : ∀ x ∈ fillGap a b p, a < x ∧ x < b :=
  fillGapAux_bounds (b - a) a b p

theorem fillGapAux_sorted :
    ∀ (fuel a b p : ℕ), (fillGapAux fuel a b p).Pairwise (· < ·) := by
  intro fuel
  induction fuel with
  | zero => intro a b p; simp [fillGapAux]
  | succ n ih =>
    intro a b p
    simp only [fillGapAux]
    split_ifs with h
    · refine List.pairwise_cons.mpr ⟨?_, ih (a + p) b p⟩
      intro x hx
      exact (fillGapAux_bounds n (a + p) b p x hx).1
    · exact List.Pairwise.nil

theorem fillGap_sorted (a b p : ℕ) : (fillGap a b p).Pairwise (· < ·) :=
  fillGapAux_sorted (b - a) a b p

theorem fillGaps_mem_lower :
    ∀ (cs : List ℕ) (p c : ℕ), (c :: cs).Pairwise (· < ·) →
      ∀ x ∈ fillGaps p (c :: cs), c ≤ x := by
  intro cs
  induction cs with
  | nil =>
    intro p c _ x hx
    simp [fillGaps] at hx
    omega
  | cons b rest ih =>
    intro p c hpw x hx
    simp only [fillGaps, List.mem_cons, List.mem_append] at hx
    have hcb : c < b := (List.pairwise_cons.mp hpw).1 b (by simp)
    rcases hx with rfl | hx | hx
    · exact le_rfl
    · exact (fillGap_bounds c b p x hx).1.le
    · exact le_of_lt (lt_of_lt_of_le hcb (ih p b hpw.of_cons x hx))

theorem fillGaps_sorted :
    ∀ (l : List ℕ) (p : ℕ), l.Pairwise (· < ·) → (fillGaps p l).Pairwise (· < ·) := by
  intro l
  induction l with
  | nil => intro p _; exact List.Pairwise.nil
  | cons a tail ih =>
    intro p hpw
    cases tail with
    | nil => simp [fillGaps]
    | cons b rest =>
      have hab : a < b := (List.pairwise_cons.mp hpw).1 b (by simp)
      show ((a :: (fillGap a b p ++ fillGaps p (b :: rest)))).Pairwise (· < ·)
      refine List.pairwise_cons.mpr ⟨?_, ?_⟩
      · intro x hx
        rcases List.mem_append.mp hx with hx | hx
        · exact (fillGap_bounds a b p x hx).1
        · exact lt_of_lt_of_le hab (fillGaps_mem_lower rest p b hpw.of_cons x hx)
      · refine List.pairwise_append.mpr ⟨fillGap_sorted a b p, ih p hpw.of_cons, ?_⟩
        intro x hx y hy
        exact lt_of_lt_of_le (fillGap_bounds a b p x hx).2
          (fillGaps_mem_lower rest p b hpw.of_cons y hy)

theorem sublist_fillGaps : ∀ (l : List ℕ) (p : ℕ), List.Sublist l (fillGaps p l) := by
  intro l
  induction l with
  | nil => intro p; exact List.Sublist.refl []
  | cons a tail ih =>
    intro p
    cases tail with
    | nil => exact List.Sublist.refl [a]
    | cons b rest =>
      show List.Sublist (a :: b :: rest) (a :: (fillGap a b p ++ fillGaps p (b :: rest)))
      exact List.Sublist.cons₂ a ((ih p).trans (List.sublist_append_right _ _))

theorem groupRuns_cons (c : ℕ) (cs : List ℕ) :
    groupRuns (c :: cs)
      = match groupRuns cs with
        | [] => [(c, 1)]
        | (s, l) :: rest =>
          if c + 1 = s then (c, l + 1) :: rest else (c, 1) :: (s, l) :: rest := rfl

theorem groupRuns_spec :
    ∀ l : List ℕ, l.Pairwise (· < ·) →
      ((groupRuns l).Pairwise (fun g g' => g.1 + g.2 ≤ g'.1))
      ∧ (∀ g ∈ groupRuns l, 1 ≤ g.2)
      ∧ (∀ c cs, l = c :: cs → ∃ len rest, groupRuns l = (c, len) :: rest ∧ 1 ≤ len) := by
  intro l
  induction l with
  | nil =>
    intro _
    refine ⟨List.Pairwise.nil, by simp [groupRuns], ?_⟩
    intro c cs h
    cases h
  | cons c cs ih =>
    intro hpw
    obtain ⟨ihpw, ihlen, ihhead⟩ := ih hpw.of_cons
    cases cs with
    | nil =>
      refine ⟨by simp [groupRuns], by simp [groupRuns], ?_⟩
      intro c' cs' h
      cases h
      exact ⟨1, [], rfl, le_rfl⟩
    | cons b rest =>
      obtain ⟨len, grest, hgr, hlen1⟩ := ihhead b rest rfl
      have hcb : c < b := (List.pairwise_cons.mp hpw).1 b (by simp)
      have hheadrel : ∀ g' ∈ grest, b + len ≤ g'.1 := by
        intro g' hg'
        have := (List.pairwise_cons.mp (hgr ▸ ihpw)).1 g' hg'
        simpa using this
      have hrestpw : grest.Pairwise (fun g g' => g.1 + g.2 ≤ g'.1) :=
        (hgr ▸ ihpw).of_cons
      have hrestlen : ∀ g ∈ grest, 1 ≤ g.2 := by
        intro g hg
        exact ihlen g (by rw [hgr]; exact List.mem_cons_of_mem _ hg)
      have hstep : groupRuns (c :: b :: rest)
          = if c + 1 = b then (c, len + 1) :: grest
            else (c, 1) :: (b, len) :: grest := by
        rw [groupRuns_cons, hgr]
      rw [hstep]
      by_cases hadj : c + 1 = b
      · rw [if_pos hadj]
        refine ⟨?_, ?_, ?_⟩
        · refine List.pairwise_cons.mpr ⟨?_, hrestpw⟩
          intro g' hg'
          have := hheadrel g' hg'
          simp
          omega
        · intro g hg
          rcases List.mem_cons.mp hg with rfl | hg'
          · simp
          · exact hrestlen g hg'
        · intro c' cs' h
          injection h with h1 h2
          subst h1
          exact ⟨len + 1, grest, rfl, by omega⟩
      · rw [if_neg hadj]
        refine ⟨?_, ?_, ?_⟩
        · refine List.pairwise_cons.mpr ⟨?_, ?_⟩
          · intro g' hg'
            rcases List.mem_cons.mp hg' with rfl | hg''
            · simp
              omega
            · have := hheadrel g' hg''
              simp
              omega
          · refine List.pairwise_cons.mpr ⟨?_, hrestpw⟩
            intro g' hg'
            simpa using hheadrel g' hg'
        · intro g hg
          rcases List.mem_cons.mp hg with rfl | hg'
          · simp
          · rcases List.mem_cons.mp hg' with rfl | hg''
            · simpa using hlen1
            · exact hrestlen g hg''
        · intro c' cs' h
          injection h with h1 h2
          subst h1
          exact ⟨1, (b, len) :: grest, rfl, le_rfl⟩

theorem runElems_bounds (tlt : ℕ) (g : ℕ × ℕ) (hg : 1 ≤ g.2) :
    ∀ x ∈ runElems tlt g, g.1 ≤ x ∧ x ≤ g.1 + g.2 - 1 := by
  intro x hx
  unfold runElems at hx
  split_ifs at hx with htl
  · simp at hx
    omega
  · simp only [List.mem_map, List.mem_range] at hx
    obtain ⟨i, hi, rfl⟩ := hx
    omega

theorem runElems_sorted (tlt : ℕ) (g : ℕ × ℕ) : (runElems tlt g).Pairwise (· < ·) := by
  unfold runElems
  split_ifs with htl
  · simp
  · rw [List.pairwise_map]
    exact List.Pairwise.imp (fun h => by omega) (List.sorted_lt_range g.2)

theorem flatMap_runElems_sorted (tlt : ℕ) :
    ∀ gs : List (ℕ × ℕ), gs.Pairwise (fun g g' => g.1 + g.2 ≤ g'.1) →
      (∀ g ∈ gs, 1 ≤ g.2) → (gs.flatMap (runElems tlt)).Pairwise (· < ·) := by
  intro gs
  induction gs with
  | nil => intro _ _; simp
  | cons g gs ih =>
    intro hpw hlen
    rw [List.flatMap_cons]
    refine List.pairwise_append.mpr
      ⟨runElems_sorted tlt g,
       ih hpw.of_cons (fun g' hg' => hlen g' (List.mem_cons_of_mem _ hg')), ?_⟩
    intro x hx y hy
    obtain ⟨g', hg', hy'⟩ := List.mem_flatMap.mp hy
    have h1 : x ≤ g.1 + g.2 - 1 := (runElems_bounds tlt g (hlen g (by simp)) x hx).2
    have h2 : g'.1 ≤ y :=
      (runElems_bounds tlt g' (hlen g' (List.mem_cons_of_mem _ hg')) y hy').1
    have h3 : g.1 + g.2 ≤ g'.1 := (List.pairwise_cons.mp hpw).1 g' hg'
    have h4 : 1 ≤ g.2 := hlen g (by simp)
    omega

theorem cleanBaselines_sorted (tlt : ℕ) (raw : List ℕ)
    (hraw : raw.Pairwise (· < ·)) : (cleanBaselines tlt raw).Pairwise (· < ·) := by
  obtain ⟨hpw, hlen, _⟩ := groupRuns_spec raw hraw
  exact flatMap_runElems_sorted tlt _ hpw hlen

theorem rawBaselines_sorted (img : List (List Bool)) (bdb bde bft : ℕ) :
    (rawBaselines img bdb bde bft).Pairwise (· < ·) := by
  unfold rawBaselines
  exact List.Pairwise.filter _ (List.sorted_lt_range _)

/-! ## SEGY encoding (`core/segy_writer.py`, absent from the source tree) -/

/-- A file system: a map from paths to the files they hold. -/
def FS (β : Type) : Type := String → Option β

/-- One encoded exchange file: the binary-header triple (samples per
trace, trace count, sample interval in microseconds) plus the trace
blocks. -/
structure SegyFile where
  samplesPerTrace : ℕ
  traceCount : ℕ
  dtMicros : Int
  traces : List (List ℚ)
deriving DecidableEq

/-- Modelled from the spec: `core/segy_writer.py` is absent from the
source tree; per §3/§6 the encoder serializes the whole trace matrix with
a binary header whose declared sample count and interval match every
trace block. -/
def encodeSegy (matrix : List (List ℚ)) (dt : Int) : SegyFile :=
  { samplesPerTrace := (matrix.headD []).length,
    traceCount := matrix.length,
    dtMicros := dt * 1000,
    traces := matrix }

/-- Modelled from the spec: `core/segy_writer.py` is absent from the
source tree; per §4.5/§7 `write_segy` writes the encoded file to a temp
path and renames it onto the output path on success (`ioOk = true`); on
any failure after the temp file is opened the temp file is discarded and
the output path is left untouched. -/
def write_segy (matrix : List (List ℚ)) (dt : Int) (ioOk : Bool)
    (out : String) (fs : FS SegyFile) : Bool × FS SegyFile :=
  let tmp := out ++ ".tmp"
  if ioOk then
    let file := encodeSegy matrix dt
    (true, fun p => if p = out then some file else if p = tmp then none else fs p)
  else
    (false, fun p => if p = tmp then none else fs p)

theorem ne_append_tmp (s : String) : s ≠ s ++ ".tmp" := by
  intro h
  have hlen := congrArg String.length h
  rw [String.length_append] at hlen
  have h4 : ".tmp".length = 4 := rfl
  omega

/-! ## Parameter persistence (`ui/_2_parameters_tab.py`)

`save_parameters` writes one `f"{param}\t{value}\n"` line per key;
`load_parameters` re-reads the file with
`dict(line.split('\t') for line in f if '\t' in line)` and strips each
value.  Lines are modelled as character lists; Python's `str`/`int`
built-ins on integers are modelled by `pyStrChars`/`pyIntChars`. -/

def parseDigits (l : List ℕ) : ℕ :=
  l.foldl (fun a d => 10 * a + d) 0

/-- Decimal digits of `n`, most significant first; the fuel `n + 1`
dominates the digit count. -/
def natDigitsAux : ℕ → ℕ → List ℕ
  | 0, _ => []
  | fuel + 1, n => if n < 10 then [n] else natDigitsAux fuel (n / 10) ++ [n % 10]

def natDigits (n : ℕ) : List ℕ :=
  natDigitsAux (n + 1) n

def digitChar (d : ℕ) : Char :=
  Char.ofNat (48 + d)

def digitVal (c : Char) : ℕ :=
  c.toNat - 48

/-- Python `str` on an int: a minus sign for negatives followed by the
decimal digits. -/
def pyStrChars (v : Int) : List Char :=
  if v < 0 then '-' :: (natDigits v.natAbs).map digitChar
  else (natDigits v.toNat).map digitChar

/-- Python `int` on a string of an optional minus sign and decimal
digits; anything else raises (`none`). -/
def pyIntChars (cs : List Char) : Option Int :=
  if cs.headD 'x' = '-' then
    if cs.tail ≠ [] ∧ cs.tail.all Char.isDigit then
      some (-(parseDigits (cs.tail.map digitVal) : ℤ))
    else none
  else
    if cs ≠ [] ∧ cs.all Char.isDigit then
      some ((parseDigits (cs.map digitVal) : ℤ))
    else none

/-- The whitespace class stripped by Python `str.strip()` (the characters
that can actually occur around a written value). -/
def isPySpace (c : Char) : Bool :=
  c = ' ' || c = '\t' || c = '\n' || c = '\r'

def pyStripChars (l : List Char) : List Char :=
  ((l.dropWhile isPySpace).reverse.dropWhile isPySpace).reverse

/-- Python `line.split('\t')`. -/
def splitOnTab : List Char → List (List Char)
  | [] => [[]]
  | c :: rest =>
    let r := splitOnTab rest
    if c = '\t' then [] :: r else (c :: r.headD []) :: r.tail

/-- One written parameter line `f"{param}\t{value}\n"`. -/
def parLineChars (k : List Char) (v : Int) : List Char :=
  k ++ '\t' :: (pyStrChars v ++ ['\n'])

/-- The lines `save_parameters` writes for a validated record. -/
def save_parameters_file (p : ParamRecord) : List (List Char) :=
  (paramLines p).map (fun kv => parLineChars kv.1.data kv.2)

/-- `load_parameters`: keep the lines holding a tab, split each at the
tabs (a line splitting into other than key/value raises in `dict(...)`),
and strip each value. -/
def load_parameters (lines : List (List Char)) : List (List Char × List Char) :=
  (lines.filter (fun l => l.contains '\t')).filterMap (fun l =>
    match splitOnTab l with
    | [k, v] => some (k, pyStripChars v)
    | _ => none)

theorem parseDigits_append_digit (l : List ℕ) (d : ℕ) :
    parseDigits (l ++ [d]) = 10 * parseDigits l + d := by
  simp [parseDigits, List.foldl_append]

theorem natDigitsAux_parse :
    ∀ fuel n, n < fuel → parseDigits (natDigitsAux fuel n) = n := by
  intro fuel
  induction fuel with
  | zero => intro n h; omega
  | succ f ih =>
    intro n h
    simp only [natDigitsAux]
    split_ifs with h10
    · simp [parseDigits]
    · rw [parseDigits_append_digit, ih (n / 10) (by omega)]
      omega

theorem parseDigits_natDigits (n : ℕ) : parseDigits (natDigits n) = n :=
  natDigitsAux_parse (n + 1) n (Nat.lt_succ_self n)

theorem natDigitsAux_lt10 :
    ∀ fuel n, ∀ d ∈ natDigitsAux fuel n, d < 10 := by
  intro fuel
  induction fuel with
  | zero => intro n d hd; simp [natDigitsAux] at hd
  | succ f ih =>
    intro n d hd
    simp only [natDigitsAux] at hd
    split_ifs at hd with h10
    · simp at hd
      omega
    · rcases List.mem_append.mp hd with hd | hd
      · exact ih (n / 10) d hd
      · simp at hd
        omega

theorem natDigits_lt10 (n : ℕ) : ∀ d ∈ natDigits n, d < 10 :=
  natDigitsAux_lt10 (n + 1) n

theorem natDigits_ne_nil (n : ℕ) : natDigits n ≠ [] := by
  simp only [natDigits, natDigitsAux]
  split_ifs <;> simp

theorem digitVal_digitChar {d : ℕ} (h : d < 10) : digitVal (digitChar d) = d := by
  interval_cases d <;> decide

theorem digitChar_isDigit {d : ℕ} (h : d < 10) : (digitChar d).isDigit = true := by
  interval_cases d <;> decide

theorem digitChar_not_space {d : ℕ} (h : d < 10) : isPySpace (digitChar d) = false := by
  interval_cases d <;> decide

theorem digitChar_ne_dash {d : ℕ} (h : d < 10) : digitChar d ≠ '-' := by
  interval_cases d <;> decide

theorem map_digitVal_digitChar (l : List ℕ) (h : ∀ d ∈ l, d < 10) :
    (l.map digitChar).map digitVal = l := by
  induction l with
  | nil => rfl
  | cons a l ih =>
    simp only [List.map_cons, List.cons.injEq]
    exact ⟨digitVal_digitChar (h a (by simp)),
      ih (fun d hd => h d (List.mem_cons_of_mem _ hd))⟩

theorem pyStrChars_not_space (v : Int) : ∀ c ∈ pyStrChars v, isPySpace c = false := by
  intro c hc
  simp only [pyStrChars] at hc
  split_ifs at hc with hneg
  · rcases List.mem_cons.mp hc with rfl | hc'
    · decide
    · obtain ⟨d, hd, rfl⟩ := List.mem_map.mp hc'
      exact digitChar_not_space (natDigits_lt10 _ d hd)
  · obtain ⟨d, hd, rfl⟩ := List.mem_map.mp hc
    exact digitChar_not_space (natDigits_lt10 _ d hd)

theorem pyStrChars_ne_tab (v : Int) : ∀ c ∈ pyStrChars v, c ≠ '\t' := by
  intro c hc heq
  have := pyStrChars_not_space v c hc
  subst heq
  simp [isPySpace] at this

theorem pyStrChars_ne_nil (v : Int) : pyStrChars v ≠ [] := by
  simp only [pyStrChars]
  split_ifs
  · simp
  · simp [natDigits_ne_nil]

theorem all_isDigit_map_digitChar (l : List ℕ) (h : ∀ d ∈ l, d < 10) :
    (l.map digitChar).all Char.isDigit = true := by
  rw [List.all_eq_true]
  intro c hc
  obtain ⟨d, hd, rfl⟩ := List.mem_map.mp hc
  exact digitChar_isDigit (h d hd)

theorem pyIntChars_pyStrChars (v : Int) : pyIntChars (pyStrChars v) = some v := by
  by_cases hneg : v < 0
  · have hstr : pyStrChars v = '-' :: (natDigits v.natAbs).map digitChar := by
      rw [pyStrChars, if_pos hneg]
    rw [hstr]
    simp only [pyIntChars, List.headD_cons, List.tail_cons, if_pos rfl]
    have hcond : ((natDigits v.natAbs).map digitChar ≠ []
        ∧ ((natDigits v.natAbs).map digitChar).all Char.isDigit = true) :=
      ⟨by simp [natDigits_ne_nil], all_isDigit_map_digitChar _ (natDigits_lt10 _)⟩
    rw [if_pos hcond, map_digitVal_digitChar _ (natDigits_lt10 _), parseDigits_natDigits]
    rw [Int.natCast_natAbs, abs_of_neg hneg, neg_neg]
    simp
  · have hstr : pyStrChars v = (natDigits v.toNat).map digitChar := by
      rw [pyStrChars, if_neg hneg]
    obtain ⟨d, ds, hds⟩ := List.exists_cons_of_ne_nil (natDigits_ne_nil v.toNat)
    have hhead : ((natDigits v.toNat).map digitChar).headD 'x' ≠ '-' := by
      rw [hds, List.map_cons, List.headD_cons]
      exact digitChar_ne_dash (natDigits_lt10 _ d (by rw [hds]; simp))
    rw [hstr]
    simp only [pyIntChars]
    rw [if_neg hhead]
    have hcond : ((natDigits v.toNat).map digitChar ≠ []
        ∧ ((natDigits v.toNat).map digitChar).all Char.isDigit = true) :=
      ⟨by rw [hds]; simp, all_isDigit_map_digitChar _ (natDigits_lt10 _)⟩
    rw [if_pos hcond, map_digitVal_digitChar _ (natDigits_lt10 _), parseDigits_natDigits]
    congr 1
    omega

theorem splitOnTab_no_tab : ∀ (v : List Char), '\t' ∉ v → splitOnTab v = [v] := by
  intro v
  induction v with
  | nil => intro _; rfl
  | cons c rest ih =>
    intro hv
    have hc : c ≠ '\t' := fun h => hv (h ▸ List.mem_cons_self c rest)
    have hrest : '\t' ∉ rest := fun h => hv (List.mem_cons_of_mem c h)
    simp only [splitOnTab, ih hrest, if_neg hc]
    rfl

theorem splitOnTab_append (v : List Char) :
    ∀ (k : List Char), '\t' ∉ k →
      splitOnTab (k ++ '\t' :: v) = k :: splitOnTab v := by
  intro k
  induction k with
  | nil => intro _; simp [splitOnTab]
  | cons c k' ih =>
    intro hk
    have hc : c ≠ '\t' := fun h => hk (h ▸ List.mem_cons_self c k')
    have hk' : '\t' ∉ k' := fun h => hk (List.mem_cons_of_mem c h)
    have step : splitOnTab (c :: (k' ++ '\t' :: v))
        = if c = '\t' then [] :: splitOnTab (k' ++ '\t' :: v)
          else (c :: (splitOnTab (k' ++ '\t' :: v)).headD [])
            :: (splitOnTab (k' ++ '\t' :: v)).tail := rfl
    rw [List.cons_append, step, if_neg hc, ih hk']
    rfl

theorem dropWhile_eq_self_of_forall {p : Char → Bool} :
    ∀ l : List Char, (∀ c ∈ l, p c = false) → l.dropWhile p = l := by
  intro l
  induction l with
  | nil => intro _; rfl
  | cons a l ih =>
    intro h
    rw [List.dropWhile_cons, if_neg (by simp [h a (by simp)])]

theorem pyStripChars_value (v : Int) :
    pyStripChars (pyStrChars v ++ ['\n']) = pyStrChars v := by
  obtain ⟨d, ds, hds⟩ := List.exists_cons_of_ne_nil (pyStrChars_ne_nil v)
  have hhead : isPySpace d = false := pyStrChars_not_space v d (by rw [hds]; simp)
  rw [pyStripChars]
  rw [show (pyStrChars v ++ ['\n']).dropWhile isPySpace = pyStrChars v ++ ['\n'] from by
    rw [hds, List.cons_append, List.dropWhile_cons, if_neg (by simp [hhead])]]
  rw [List.reverse_append]
  simp only [List.reverse_cons, List.reverse_nil, List.nil_append, List.singleton_append,
    List.dropWhile_cons]
  rw [if_pos (by decide)]
  rw [dropWhile_eq_self_of_forall _ (fun c hc =>
    pyStrChars_not_space v c (List.mem_reverse.mp hc))]
  exact List.reverse_reverse _

theorem filterMap_eq_map_of_forall {α β : Type} (l : List α) (f : α → Option β)
    (g : α → β) (h : ∀ a ∈ l, f a = some (g a)) : l.filterMap f = l.map g := by
  induction l with
  | nil => rfl
  | cons a l ih =>
    rw [List.filterMap_cons, h a (by simp), List.map_cons,
      ih (fun x hx => h x (List.mem_cons_of_mem _ hx))]

theorem paramLines_key_no_tab (p : ParamRecord) :
    ∀ kv ∈ paramLines p, '\t' ∉ kv.1.data := by
  intro kv hkv
  have hk : kv.1 ∈ (paramLines p).map Prod.fst := List.mem_map_of_mem _ hkv
  have hkeys : (paramLines p).map Prod.fst
      = ["Trace_P1", "TWT_P1", "Trace_P2", "TWT_P2", "Trace_P3", "TWT_P3", "DT",
         "F1", "F2", "F3", "F4", "TLT", "HLT", "HE", "BDB", "BDE", "BFT"] := rfl
  rw [hkeys] at hk
  simp only [List.mem_cons, List.not_mem_nil, or_false] at hk
  rcases hk with h | h | h | h | h | h | h | h | h | h | h | h | h | h | h | h | h <;>
    (rw [h]; decide)

theorem contains_of_mem {a : Char} {l : List Char} (h : a ∈ l) : l.contains a = true :=
  List.elem_eq_true_of_mem h

end SegyRecover

/-- C10: parameter persistence round-trips: for every record passing
validation, saving with `save_parameters` (tab-separated key/value lines)
and re-reading with `load_parameters` yields exactly one entry per key
holding the decimal text of the saved value, and Python `int` applied to
that text restores exactly the original integer for every parameter
key. -/
theorem SegyRecover.save_load_roundtrip (p : SegyRecover.ParamRecord)
    (_hv : SegyRecover.validSpec p) :
    SegyRecover.load_parameters (SegyRecover.save_parameters_file p)
      = (SegyRecover.paramLines p).map
          (fun kv => (kv.1.data, SegyRecover.pyStrChars kv.2))
    ∧ ∀ kv ∈ SegyRecover.paramLines p,
        SegyRecover.pyIntChars (SegyRecover.pyStrChars kv.2) = some kv.2 := by
  constructor
  · unfold SegyRecover.load_parameters SegyRecover.save_parameters_file
    rw [List.filter_eq_self.mpr ?hall]
    case hall =>
      intro l hl
      obtain ⟨kv, hkv, rfl⟩ := List.mem_map.mp hl
      refine SegyRecover.contains_of_mem ?_
      rw [SegyRecover.parLineChars]
      exact List.mem_append.mpr (Or.inr (List.mem_cons_self _ _))
    rw [List.filterMap_map]
    apply SegyRecover.filterMap_eq_map_of_forall
    intro kv hkv
    have hvtab : '\t' ∉ (SegyRecover.pyStrChars kv.2 ++ ['\n']) := by
      intro hmem
      rcases List.mem_append.mp hmem with h | h
      · exact SegyRecover.pyStrChars_ne_tab kv.2 _ h rfl
      · simp at h
    simp only [Function.comp_apply]
    rw [SegyRecover.parLineChars,
      SegyRecover.splitOnTab_append _ _ (SegyRecover.paramLines_key_no_tab p kv hkv),
      SegyRecover.splitOnTab_no_tab _ hvtab]
    rw [show (∀ k v, (match [k, v] with
        | [k, v] => some (k, SegyRecover.pyStripChars v)
        | _ => (none : Option (List Char × List Char)))
          = some (k, SegyRecover.pyStripChars v)) from fun k v => rfl]
    rw [SegyRecover.pyStripChars_value]
  · intro kv _
    exact SegyRecover.pyIntChars_pyStrChars kv.2

/-- Witness for C10: the valid default-style record's TWT_P3 value 1000
is restored exactly by the parse of its stored text. -/
theorem SegyRecover.save_load_roundtrip_witness :
    SegyRecover.pyIntChars (SegyRecover.pyStrChars 1000) = some 1000 :=
  (SegyRecover.save_load_roundtrip
      ⟨0, 0, 0, 0, 0, 1000, 1, 10, 12, 70, 80, 1, 1, 50, 5, 100, 80⟩ (by decide)).2
    ("TWT_P3", 1000) (by decide)

/-- C7: for every valid input, `detect_baselines` returns a final
baseline list that is sorted strictly increasing with no duplicate
column indices, and at least as long as the clean baseline list it also
returns. -/
theorem SegyRecover.detect_baselines_final_invariants (img : List (List Bool))
    (tlt bdb bde bft : ℕ) (raw clean final : List ℕ)
    (h : SegyRecover.detect_baselines img tlt bdb bde bft = some (raw, clean, final)) :
    final.Pairwise (· < ·) ∧ final.Nodup ∧ clean.length ≤ final.length := by
  simp only [SegyRecover.detect_baselines] at h
  split_ifs at h with h1 h2
  simp only [Option.some.injEq, Prod.mk.injEq] at h
  obtain ⟨rfl, rfl, rfl⟩ := h
  have hraw := SegyRecover.rawBaselines_sorted img bdb bde bft
  have hclean := SegyRecover.cleanBaselines_sorted tlt _ hraw
  have hfinal := SegyRecover.fillGaps_sorted _
    (SegyRecover.median (SegyRecover.diffs (SegyRecover.cleanBaselines tlt
      (SegyRecover.rawBaselines img bdb bde bft)))) hclean
  refine ⟨hfinal, List.Pairwise.imp (fun hlt => Nat.ne_of_lt hlt) hfinal, ?_⟩
  exact (SegyRecover.sublist_fillGaps _ _).length_le

/-- Witness for C7: a 5-row binary image with ink columns 1 and 4 and
band [0, 5) at BFT = 50 yields raw = clean = final = [1, 4], which is
sorted, duplicate-free, and no shorter than clean. -/
theorem SegyRecover.detect_baselines_final_invariants_witness :
    ([1, 4] : List ℕ).Pairwise (· < ·) ∧ ([1, 4] : List ℕ).Nodup
    ∧ ([1, 4] : List ℕ).length ≤ ([1, 4] : List ℕ).length :=
  SegyRecover.detect_baselines_final_invariants
    (List.replicate 5 [false, true, false, false, true, false, false])
    1 0 5 50 [1, 4] [1, 4] [1, 4] (by decide)

/-- C6: the SEGY encoding step is all-or-nothing: `write_segy` either
leaves one complete encoded exchange file at the output path (renamed
from the temp path, which afterwards holds nothing) or fails with the
output path exactly as it was before the call; after a failure no
partial file exists at the output path. -/
theorem SegyRecover.write_segy_atomic (matrix : List (List ℚ)) (dt : Int)
    (ioOk : Bool) (out : String) (fs : SegyRecover.FS SegyRecover.SegyFile) :
    ((SegyRecover.write_segy matrix dt ioOk out fs).1 = true →
      (SegyRecover.write_segy matrix dt ioOk out fs).2 out
        = some (SegyRecover.encodeSegy matrix dt))
    ∧ ((SegyRecover.write_segy matrix dt ioOk out fs).1 = false →
      (SegyRecover.write_segy matrix dt ioOk out fs).2 out = fs out)
    ∧ (SegyRecover.write_segy matrix dt ioOk out fs).2 (out ++ ".tmp") = none := by
  have hne : out ≠ out ++ ".tmp" := SegyRecover.ne_append_tmp out
  cases ioOk <;>
    simp [SegyRecover.write_segy, hne, (SegyRecover.ne_append_tmp out).symm]

/-- Witness for C6: a successful write of a 1-trace matrix puts the
encoded file at the output path, and a failed write leaves an initially
empty output path empty. -/
theorem SegyRecover.write_segy_atomic_witness :
    ((SegyRecover.write_segy [[0]] 2 true "L1.segy" (fun _ => none)).2 "L1.segy"
      = some (SegyRecover.encodeSegy [[0]] 2))
    ∧ ((SegyRecover.write_segy [[0]] 2 false "L1.segy" (fun _ => none)).2 "L1.segy"
      = (fun _ => none : SegyRecover.FS SegyRecover.SegyFile) "L1.segy") :=
  ⟨(SegyRecover.write_segy_atomic [[0]] 2 true "L1.segy" (fun _ => none)).1 rfl,
   (SegyRecover.write_segy_atomic [[0]] 2 false "L1.segy" (fun _ => none)).2.1 rfl⟩

/-- C8: after `crop_seismic_section` every pixel of the binary rectified
image is exactly 0 or 255 (thresholded at 128), and the image's width and
height are the integer-truncated Euclidean distances between corner
points p1-p2 and p1-p3 respectively. -/
theorem SegyRecover.crop_seismic_section_binary (p1 p2 p3 : Int × Int)
    (warp : ℕ → ℕ → (ℕ → ℕ → ℕ)) :
    (∀ r c, (SegyRecover.crop_seismic_section p1 p2 p3 warp).binary r c = 0
        ∨ (SegyRecover.crop_seismic_section p1 p2 p3 warp).binary r c = 255)
    ∧ (SegyRecover.crop_seismic_section p1 p2 p3 warp).width
        = ⌊Real.sqrt (((p1.1 : ℝ) - (p2.1 : ℝ)) ^ 2 + ((p1.2 : ℝ) - (p2.2 : ℝ)) ^ 2)⌋₊
    ∧ (SegyRecover.crop_seismic_section p1 p2 p3 warp).height
        = ⌊Real.sqrt (((p1.1 : ℝ) - (p3.1 : ℝ)) ^ 2 + ((p1.2 : ℝ) - (p3.2 : ℝ)) ^ 2)⌋₊ := by
  refine ⟨?_, ?_, ?_⟩
  · intro r c
    simp only [SegyRecover.crop_seismic_section, SegyRecover.threshold128]
    split
    · exact Or.inr rfl
    · exact Or.inl rfl
  · rw [← SegyRecover.natCast_normSq_real, Real.nat_floor_real_sqrt_eq_nat_sqrt]
    rfl
  · rw [← SegyRecover.natCast_normSq_real, Real.nat_floor_real_sqrt_eq_nat_sqrt]
    rfl

/-- C9: whenever exactly three ROI corner points have been selected, the
fourth corner is the parallelogram completion p4 = p2 + p3 − p1
componentwise and is appended, so the point list has length 4. -/
theorem SegyRecover.fourth_point_parallelogram (p1 p2 p3 : Int × Int) :
    SegyRecover.calculate_and_draw_fourth_point [p1, p2, p3]
      = [p1, p2, p3, (p2.1 + p3.1 - p1.1, p2.2 + p3.2 - p1.2)]
    ∧ (SegyRecover.calculate_and_draw_fourth_point [p1, p2, p3]).length = 4 := by
  refine ⟨?_, rfl⟩
  simp only [SegyRecover.calculate_and_draw_fourth_point, List.cons.injEq, and_true,
    true_and, Prod.mk.injEq]
  omega

/-- C3: `digitize_segy` invokes the stages in the fixed order (the invoked
list is always a take-k of that order); a failing stage is the last one
invoked and yields no SEGY output; and `write_segy` is invoked only when
every earlier stage was invoked and none of them failed. -/
theorem SegyRecover.digitize_segy_stage_order {Img Amp : Type}
    (c : SegyRecover.Core Img Amp) (img : Img) (p : SegyRecover.ParamRecord)
    (path : String) :
    (∃ k, (SegyRecover.digitize_segy c img p path).invoked = SegyRecover.stageOrder.take k)
    ∧ (∀ s, (SegyRecover.digitize_segy c img p path).failedAt = some s →
        (SegyRecover.digitize_segy c img p path).invoked.getLast? = some s
        ∧ (SegyRecover.digitize_segy c img p path).segyWritten = false)
    ∧ (SegyRecover.Stage.writeSegy ∈ (SegyRecover.digitize_segy c img p path).invoked →
        (SegyRecover.digitize_segy c img p path).invoked = SegyRecover.stageOrder
        ∧ ((SegyRecover.digitize_segy c img p path).failedAt = none
            ∨ (SegyRecover.digitize_segy c img p path).failedAt
                = some SegyRecover.Stage.writeSegy)) := by
  unfold SegyRecover.digitize_segy
  split
  · exact ⟨⟨1, rfl⟩, (fun s hs => by cases hs; exact ⟨rfl, rfl⟩),
      (fun h => absurd h (by decide))⟩
  · split
    · exact ⟨⟨2, rfl⟩, (fun s hs => by cases hs; exact ⟨rfl, rfl⟩),
        (fun h => absurd h (by decide))⟩
    · split
      · split
        · exact ⟨⟨3, rfl⟩, (fun s hs => by cases hs; exact ⟨rfl, rfl⟩),
            (fun h => absurd h (by decide))⟩
        · split
          · exact ⟨⟨4, rfl⟩, (fun s hs => by cases hs; exact ⟨rfl, rfl⟩),
              (fun h => absurd h (by decide))⟩
          · split
            · exact ⟨⟨5, rfl⟩, (fun s hs => by cases hs; exact ⟨rfl, rfl⟩),
                (fun h => absurd h (by decide))⟩
            · split
              · exact ⟨⟨6, rfl⟩, (fun s hs => by cases hs; exact ⟨rfl, rfl⟩),
                  (fun h => absurd h (by decide))⟩
              · split
                · exact ⟨⟨7, rfl⟩, (fun s hs => by cases hs),
                    (fun _ => ⟨rfl, Or.inl rfl⟩)⟩
                · exact ⟨⟨7, rfl⟩, (fun s hs => by cases hs; exact ⟨rfl, rfl⟩),
                    (fun _ => ⟨rfl, Or.inr rfl⟩)⟩
      · exact ⟨⟨2, rfl⟩, (fun s hs => by cases hs),
          (fun h => absurd h (by decide))⟩

/-- Witness for C3: with a core whose every stage succeeds, all seven
stages run in order; the projections below instantiate the theorem at
that core. -/
theorem SegyRecover.digitize_segy_stage_order_witness :
    (@SegyRecover.digitize_segy Unit Unit
        ⟨fun _ _ _ => some ((), ()), fun _ _ _ _ _ => some ((), [], [], []),
         fun _ _ _ _ _ _ _ _ _ => true, fun _ _ => some (), fun _ => some (),
         fun _ => 2, fun _ _ _ => some (), fun _ _ _ _ _ _ => some (),
         fun _ _ _ _ _ _ _ _ => true⟩
        () ⟨0, 0, 0, 0, 0, 1000, 1, 10, 12, 70, 80, 1, 1, 50, 5, 100, 80⟩
        "img.tif").invoked = SegyRecover.stageOrder
    ∧ ((@SegyRecover.digitize_segy Unit Unit
        ⟨fun _ _ _ => some ((), ()), fun _ _ _ _ _ => some ((), [], [], []),
         fun _ _ _ _ _ _ _ _ _ => true, fun _ _ => some (), fun _ => some (),
         fun _ => 2, fun _ _ _ => some (), fun _ _ _ _ _ _ => some (),
         fun _ _ _ _ _ _ _ _ => true⟩
        () ⟨0, 0, 0, 0, 0, 1000, 1, 10, 12, 70, 80, 1, 1, 50, 5, 100, 80⟩
        "img.tif").failedAt = none
      ∨ (@SegyRecover.digitize_segy Unit Unit
        ⟨fun _ _ _ => some ((), ()), fun _ _ _ _ _ => some ((), [], [], []),
         fun _ _ _ _ _ _ _ _ _ => true, fun _ _ => some (), fun _ => some (),
         fun _ => 2, fun _ _ _ => some (), fun _ _ _ _ _ _ => some (),
         fun _ _ _ _ _ _ _ _ => true⟩
        () ⟨0, 0, 0, 0, 0, 1000, 1, 10, 12, 70, 80, 1, 1, 50, 5, 100, 80⟩
        "img.tif").failedAt = some SegyRecover.Stage.writeSegy) :=
  (SegyRecover.digitize_segy_stage_order _ _ _ _).2.2 (by decide)

/-- C4: if the user rejects the baseline confirmation gate,
`restart_process` is called and amplitude extraction, resampling,
filtering and SEGY encoding are never invoked, so no output artifact is
persisted in that run. -/
theorem SegyRecover.digitize_segy_rejection {Img Amp : Type}
    (c : SegyRecover.Core Img Amp) (img : Img) (p : SegyRecover.ParamRecord)
    (path : String) (g f mi : Img) (raw clean final : List Int)
    (h1 : c.remove_timelines img p.HE p.HLT = some (g, f))
    (h2 : c.detect_baselines g p.TLT p.BDB p.BDE p.BFT = some (mi, raw, clean, final))
    (h3 : c.confirmBaselines img f g mi raw clean final p.BDB p.BDE = false) :
    (SegyRecover.digitize_segy c img p path).restarted = true
    ∧ (SegyRecover.digitize_segy c img p path).invoked
        = [SegyRecover.Stage.removeTimelines, SegyRecover.Stage.detectBaselines]
    ∧ SegyRecover.Stage.extractAmplitude ∉ (SegyRecover.digitize_segy c img p path).invoked
    ∧ SegyRecover.Stage.processAmplitudes ∉ (SegyRecover.digitize_segy c img p path).invoked
    ∧ SegyRecover.Stage.resampleData ∉ (SegyRecover.digitize_segy c img p path).invoked
    ∧ SegyRecover.Stage.filterData ∉ (SegyRecover.digitize_segy c img p path).invoked
    ∧ SegyRecover.Stage.writeSegy ∉ (SegyRecover.digitize_segy c img p path).invoked
    ∧ (SegyRecover.digitize_segy c img p path).segyWritten = false := by
  simp only [SegyRecover.digitize_segy, h1, h2, h3, Bool.false_eq_true, if_false]
  decide

/-- Witness for C4: a core whose detection succeeds but whose confirmation
dialog is rejected restarts the run with no SEGY written. -/
theorem SegyRecover.digitize_segy_rejection_witness :
    (@SegyRecover.digitize_segy Unit Unit
        ⟨fun _ _ _ => some ((), ()), fun _ _ _ _ _ => some ((), [], [], []),
         fun _ _ _ _ _ _ _ _ _ => false, fun _ _ => some (), fun _ => some (),
         fun _ => 2, fun _ _ _ => some (), fun _ _ _ _ _ _ => some (),
         fun _ _ _ _ _ _ _ _ => true⟩
        () ⟨0, 0, 0, 0, 0, 1000, 1, 10, 12, 70, 80, 1, 1, 50, 5, 100, 80⟩
        "img.tif").restarted = true
    ∧ (@SegyRecover.digitize_segy Unit Unit
        ⟨fun _ _ _ => some ((), ()), fun _ _ _ _ _ => some ((), [], [], []),
         fun _ _ _ _ _ _ _ _ _ => false, fun _ _ => some (), fun _ => some (),
         fun _ => 2, fun _ _ _ => some (), fun _ _ _ _ _ _ => some (),
         fun _ _ _ _ _ _ _ _ => true⟩
        () ⟨0, 0, 0, 0, 0, 1000, 1, 10, 12, 70, 80, 1, 1, 50, 5, 100, 80⟩
        "img.tif").segyWritten = false :=
  ⟨(SegyRecover.digitize_segy_rejection _ _ _ _ _ _ _ _ _ _ rfl rfl rfl).1,
   (SegyRecover.digitize_segy_rejection _ _ _ _ _ _ _ _ _ _ rfl rfl rfl).2.2.2.2.2.2.2⟩

/-- C2 as stated is false: for TWT_P1 = 0, TWT_P3 = 5, DT = 2 (a valid
record: DT > 0 and TWT_P3 > TWT_P1) the grid
`np.arange(TWT_P1, TWT_P3 + DT, DT)` has 4 samples, not
floor((TWT_P3 − TWT_P1)/DT) + 1 = 3. -/
theorem SegyRecover.new_times_length_cex :
    ¬ ((SegyRecover.new_times 0 5 2).length = ((5 - 0 : Int) / 2).toNat + 1) := by
  decide

/-- C2 amended: for every valid record the grid has
floor((TWT_P3 − TWT_P1)/DT) + 1 samples when DT divides the span and
floor((TWT_P3 − TWT_P1)/DT) + 2 otherwise; the grid spacing is DT
throughout, and every trace column of the resampled matrix has exactly
the grid's sample count. -/
theorem SegyRecover.new_times_length_eq (t1 t3 dt : Int) (hdt : 0 < dt) (h13 : t1 < t3) :
    ((SegyRecover.new_times t1 t3 dt).length
        = ((t3 - t1) / dt).toNat + (if dt ∣ (t3 - t1) then 1 else 2))
    ∧ (∀ i, i + 1 < (SegyRecover.new_times t1 t3 dt).length →
        (SegyRecover.new_times t1 t3 dt).getD (i + 1) 0
          - (SegyRecover.new_times t1 t3 dt).getD i 0 = dt)
    ∧ (∀ m oldT, ∀ col ∈ SegyRecover.resample_data m oldT
          ((SegyRecover.new_times t1 t3 dt).map (fun (z : Int) => (z : ℚ))),
        col.length = (SegyRecover.new_times t1 t3 dt).length) := by
  refine ⟨?_, ?_, ?_⟩
  · have h := @SegyRecover.arange_length_of_pos (t3 - t1) dt hdt (by omega)
    simp only [SegyRecover.new_times, SegyRecover.arange, List.length_map,
      List.length_range, if_pos hdt]
    have heq : t3 + dt - t1 + dt - 1 = t3 - t1 + 2 * dt - 1 := by ring
    rw [heq, h]
  · intro i hi
    simp only [SegyRecover.new_times, SegyRecover.arange, List.length_map,
      List.length_range, if_pos hdt] at hi
    simp only [SegyRecover.new_times, SegyRecover.arange, if_pos hdt]
    rw [List.getD_eq_getElem?_getD, List.getD_eq_getElem?_getD,
      List.getElem?_map, List.getElem?_map, List.getElem?_range (by omega),
      List.getElem?_range (by omega)]
    simp only [Option.map_some', Option.getD_some]
    push_cast
    ring
  · intro m oldT col hcol
    simp only [SegyRecover.resample_data, List.mem_map] at hcol
    obtain ⟨c, _, rfl⟩ := hcol
    rw [List.length_map, List.length_map]

/-- Witness for C2 (amended): with TWT_P1 = 0, TWT_P3 = 5, DT = 2 the grid
has floor(5/2) + 2 = 4 samples and spacing 2 between the first two. -/
theorem SegyRecover.new_times_length_eq_witness :
    ((SegyRecover.new_times 0 5 2).length
        = ((5 - 0 : Int) / 2).toNat + (if (2 : Int) ∣ (5 - 0) then 1 else 2))
    ∧ (SegyRecover.new_times 0 5 2).getD 1 0 - (SegyRecover.new_times 0 5 2).getD 0 0 = 2 :=
  ⟨(SegyRecover.new_times_length_eq 0 5 2 (by decide) (by decide)).1,
   (SegyRecover.new_times_length_eq 0 5 2 (by decide) (by decide)).2.1 0 (by decide)⟩

/-- C5: the pixel-row-to-time map used to build `old_times` for resampling
is the affine map r ↦ TWT_P1 + r·(TWT_P3 − TWT_P1)/(H − 1); row 0 maps to
TWT_P1, the last row to TWT_P3, and for TWT_P3 > TWT_P1 the map is
strictly increasing (so the two calibration times are distinct and
ordered in the same direction as their rows). -/
theorem SegyRecover.rowTime_affine (t1 t3 : Int) (H : ℕ) (hH : 2 ≤ H) (ht : t1 < t3) :
    SegyRecover.old_times t1 t3 H = (List.range H).map (SegyRecover.rowTime t1 t3 H)
    ∧ SegyRecover.rowTime t1 t3 H 0 = t1
    ∧ SegyRecover.rowTime t1 t3 H (H - 1) = t3
    ∧ (∀ r s : ℕ, r < s →
        SegyRecover.rowTime t1 t3 H r < SegyRecover.rowTime t1 t3 H s) := by
  have hd : (0 : ℚ) < (H : ℚ) - 1 := by
    have : (2 : ℚ) ≤ (H : ℚ) := by exact_mod_cast hH
    linarith
  have hc : (0 : ℚ) < (t3 : ℚ) - (t1 : ℚ) := by
    have : (t1 : ℚ) < (t3 : ℚ) := by exact_mod_cast ht
    linarith
  refine ⟨rfl, by simp [SegyRecover.rowTime], ?_, ?_⟩
  · have hcast : ((H - 1 : ℕ) : ℚ) = (H : ℚ) - 1 := by
      have h1 : (1 : ℕ) ≤ H := by omega
      push_cast [h1]
      ring
    have hd' : ((H : ℚ) - 1) ≠ 0 := hd.ne'
    rw [SegyRecover.rowTime, hcast]
    field_simp
  · intro r s hrs
    unfold SegyRecover.rowTime
    have : (r : ℚ) < (s : ℚ) := by exact_mod_cast hrs
    have hstep : (r : ℚ) * ((t3 : ℚ) - (t1 : ℚ)) < (s : ℚ) * ((t3 : ℚ) - (t1 : ℚ)) :=
      mul_lt_mul_of_pos_right this hc
    gcongr

/-- Witness for C5: with TWT_P1 = 0, TWT_P3 = 100, H = 3 rows, row 0 maps
to 0, row 2 maps to 100, and row 0's time is below row 1's. -/
theorem SegyRecover.rowTime_affine_witness :
    SegyRecover.rowTime 0 100 3 0 = 0
    ∧ SegyRecover.rowTime 0 100 3 (3 - 1) = 100
    ∧ SegyRecover.rowTime 0 100 3 0 < SegyRecover.rowTime 0 100 3 1 :=
  ⟨(SegyRecover.rowTime_affine 0 100 3 (by decide) (by decide)).2.1,
   (SegyRecover.rowTime_affine 0 100 3 (by decide) (by decide)).2.2.1,
   (SegyRecover.rowTime_affine 0 100 3 (by decide) (by decide)).2.2.2 0 1 (by decide)⟩

/-- C1: parameter validation accepts a record iff every spec inequality
holds; on a violation it fails with a `ValueError` carrying a
constraint's message and writes no parameter file (no default is
substituted, the saved lines are exactly the entered values); in
particular every record with BDB ≥ BDE is rejected. -/
theorem SegyRecover.save_parameters_ok_iff_validSpec (p : SegyRecover.ParamRecord) :
    ((∃ l, SegyRecover.save_parameters p = .ok l) ↔ SegyRecover.validSpec p)
    ∧ (∀ l, SegyRecover.save_parameters p = .ok l → l = SegyRecover.paramLines p)
    ∧ (p.BDB ≥ p.BDE → ∃ m, SegyRecover.save_parameters p = .error m) := by
  have key := SegyRecover.firstViolation_validations_eq_none_iff p
  unfold SegyRecover.save_parameters
  refine ⟨?_, ?_, ?_⟩
  · constructor
    · rintro ⟨l, hl⟩
      rcases h : SegyRecover.firstViolation (SegyRecover.validations p) with _ | m
      · exact key.mp h
      · rw [h] at hl; cases hl
    · intro hv
      rw [key.mpr hv]
      exact ⟨_, rfl⟩
  · intro l hl
    rcases h : SegyRecover.firstViolation (SegyRecover.validations p) with _ | m <;>
      rw [h] at hl <;> cases hl
    rfl
  · intro hbd
    rcases h : SegyRecover.firstViolation (SegyRecover.validations p) with _ | m
    · exact absurd (key.mp h) (by simp [SegyRecover.validSpec]; omega)
    · exact ⟨m, rfl⟩

/-- Witness for C1: the default-style record (with TWT_P3 = 1000) is
accepted, and the degenerate record with BDB = 50, BDE = 10 is
rejected. -/
theorem SegyRecover.save_parameters_witness :
    (∃ l, SegyRecover.save_parameters
        ⟨0, 0, 0, 0, 0, 1000, 1, 10, 12, 70, 80, 1, 1, 50, 5, 100, 80⟩ = .ok l)
    ∧ (∃ m, SegyRecover.save_parameters
        ⟨0, 0, 0, 0, 0, 1000, 1, 10, 12, 70, 80, 1, 1, 50, 50, 10, 80⟩ = .error m) :=
  ⟨(SegyRecover.save_parameters_ok_iff_validSpec _).1.mpr (by decide),
   (SegyRecover.save_parameters_ok_iff_validSpec _).2.2 (by decide)⟩
